import Mathlib

/-!
Verification of the taxonomy tree engine of the add_pyrodigal_rv_models
repository.

The Python scripts represent the taxonomy as dictionaries
(taxid to parent, taxid to rank, taxid to genetic code, taxid to name)
built from nodes.dmp and names.dmp.  A dictionary is embedded here as the
list of its items (key-value pairs in insertion order, keys unique for a
dict); lookup is List.lookup, which returns the binding of the first
matching key.  Machine integers of the source are Nat (taxids and genetic
codes are small non-negative integers; no overflow is involved).

Loops that the source guards with a visited set (get_lineage and
get_family_from_lineage in get_taxid_info.py) are embedded by well-founded
recursion on the number of map keys not yet visited.  Loops and recursions
that the source does not guard (get_all_descendants in
scripts/extract_taxids.py and the ancestor walk is_rna_virus in
download_refseq_genomes.py) are embedded with an explicit fuel argument;
a result of none for every fuel models non-termination of the source.
-/

namespace PyrodigalTax

/-- Items of a taxid-to-taxid dictionary (tax_to_parent, tax_to_gencode). -/
abbrev TaxMap := List (Nat × Nat)

/-- Items of the tax_to_name dictionary. -/
abbrev NameMap := List (Nat × String)

/-- Items of the tax_to_rank dictionary. -/
abbrev RankMap := List (Nat × String)

/-- tax_to_name.get(current, f"unknown_{current}") from get_lineage
(get_taxid_info.py line 81). -/
def nameGet (names : NameMap) (t : Nat) : String :=
  (List.lookup t names).getD ("unknown_" ++ toString t)

/-- tax_to_name.get(current, f"unknown_family_{current}") from
get_family_from_lineage (get_taxid_info.py line 102). -/
def familyNameGet (names : NameMap) (t : Nat) : String :=
  (List.lookup t names).getD ("unknown_family_" ++ toString t)

/-- tax_to_rank.get(current, "") from get_family_from_lineage
(get_taxid_info.py line 100). -/
def rankGet (ranks : RankMap) (t : Nat) : String :=
  (List.lookup t ranks).getD ""

/-- The number of dictionary keys not yet visited: the termination measure
of every visited-guarded ancestor walk. -/
def mW (m : TaxMap) (visited : List Nat) : Nat :=
  ((m.map Prod.fst).toFinset \ visited.toFinset).card

/-- The sequence of nodes visited by the shared ancestor-walk loop of
get_lineage and get_family_from_lineage (get_taxid_info.py lines 74-84 and
93-104): continue while the current node is not the root 1, has a parent
entry, and was not visited before; otherwise stop. -/
def walkLoop (m : TaxMap) (visited : List Nat) (current : Nat) : List Nat :=
  if h : current ≠ 1 ∧ (List.lookup current m).isSome ∧ current ∉ visited then
    current :: walkLoop m (current :: visited) ((List.lookup current m).getD 0)
  else []
termination_by mW m visited
decreasing_by
  have hmem : current ∈ m.map Prod.fst := by
    obtain ⟨-, hs, -⟩ := h
    induction m with
    | nil => simp [List.lookup] at hs
    | cons kv rest ih =>
      rcases kv with ⟨k, v⟩
      by_cases hk : current = k
      · simp [hk]
      · rw [List.lookup_cons] at hs
        have hbeq : (current == k) = false := by simp [hk]
        rw [hbeq] at hs
        simpa using Or.inr (by simpa using ih hs)
  have hsub : (m.map Prod.fst).toFinset \ (current :: visited).toFinset ⊆
      (m.map Prod.fst).toFinset \ visited.toFinset := by
    apply Finset.sdiff_subset_sdiff (le_refl _)
    intro x hx
    simp only [List.toFinset_cons, Finset.mem_insert]
    exact Or.inr hx
  apply Finset.card_lt_card
  rw [Finset.ssubset_iff_of_subset hsub]
  refine ⟨current, ?_, ?_⟩
  · simp only [Finset.mem_sdiff, List.mem_toFinset]
    exact ⟨hmem, h.2.2⟩
  · simp only [Finset.mem_sdiff, List.toFinset_cons]
    intro hc
    exact hc.2 (Finset.mem_insert_self current _)

/-- The node sequence visited by an ancestor walk started at t with an
empty visited set. -/
def walkNodes (m : TaxMap) (t : Nat) : List Nat :=
  walkLoop m [] t

/-- The while loop of get_lineage (get_taxid_info.py lines 74-84): collect
the (fallback-substituted) name of each visited node in leaf-to-root
order. -/
def lineageLoop (m : TaxMap) (names : NameMap) (visited : List Nat) (current : Nat) :
    List String :=
  if h : current ≠ 1 ∧ (List.lookup current m).isSome ∧ current ∉ visited then
    nameGet names current ::
      lineageLoop m names (current :: visited) ((List.lookup current m).getD 0)
  else []
termination_by mW m visited
decreasing_by
  have hmem : current ∈ m.map Prod.fst := by
    obtain ⟨-, hs, -⟩ := h
    induction m with
    | nil => simp [List.lookup] at hs
    | cons kv rest ih =>
      rcases kv with ⟨k, v⟩
      by_cases hk : current = k
      · simp [hk]
      · rw [List.lookup_cons] at hs
        have hbeq : (current == k) = false := by simp [hk]
        rw [hbeq] at hs
        simpa using Or.inr (by simpa using ih hs)
  have hsub : (m.map Prod.fst).toFinset \ (current :: visited).toFinset ⊆
      (m.map Prod.fst).toFinset \ visited.toFinset := by
    apply Finset.sdiff_subset_sdiff (le_refl _)
    intro x hx
    simp only [List.toFinset_cons, Finset.mem_insert]
    exact Or.inr hx
  apply Finset.card_lt_card
  rw [Finset.ssubset_iff_of_subset hsub]
  refine ⟨current, ?_, ?_⟩
  · simp only [Finset.mem_sdiff, List.mem_toFinset]
    exact ⟨hmem, h.2.2⟩
  · simp only [Finset.mem_sdiff, List.toFinset_cons]
    intro hc
    exact hc.2 (Finset.mem_insert_self current _)

/-- get_lineage (get_taxid_info.py lines 69-87), at the level of the list
of collected names: the walk collects leaf-to-root and the result is the
reverse (root-to-leaf) sequence.  The final ";".join is serialization,
kept separately in get_lineage_joined. -/
def get_lineage (m : TaxMap) (names : NameMap) (t : Nat) : List String :=
  (lineageLoop m names [] t).reverse

/-- The ";".join(reversed(lineage_parts)) serialization of get_lineage. -/
def get_lineage_joined (m : TaxMap) (names : NameMap) (t : Nat) : String :=
  String.intercalate ";" (get_lineage m names t)

/-- The while loop of get_family_from_lineage (get_taxid_info.py lines
93-104): return the name of the current node as soon as its rank is
exactly "family"; on falling out of the loop return "no_family". -/
def familyLoop (m : TaxMap) (ranks : RankMap) (names : NameMap)
    (visited : List Nat) (current : Nat) : String :=
  if h : current ≠ 1 ∧ (List.lookup current m).isSome ∧ current ∉ visited then
    if rankGet ranks current = "family" then familyNameGet names current
    else familyLoop m ranks names (current :: visited) ((List.lookup current m).getD 0)
  else "no_family"
termination_by mW m visited
decreasing_by
  have hmem : current ∈ m.map Prod.fst := by
    obtain ⟨-, hs, -⟩ := h
    induction m with
    | nil => simp [List.lookup] at hs
    | cons kv rest ih =>
      rcases kv with ⟨k, v⟩
      by_cases hk : current = k
      · simp [hk]
      · rw [List.lookup_cons] at hs
        have hbeq : (current == k) = false := by simp [hk]
        rw [hbeq] at hs
        simpa using Or.inr (by simpa using ih hs)
  have hsub : (m.map Prod.fst).toFinset \ (current :: visited).toFinset ⊆
      (m.map Prod.fst).toFinset \ visited.toFinset := by
    apply Finset.sdiff_subset_sdiff (le_refl _)
    intro x hx
    simp only [List.toFinset_cons, Finset.mem_insert]
    exact Or.inr hx
  apply Finset.card_lt_card
  rw [Finset.ssubset_iff_of_subset hsub]
  refine ⟨current, ?_, ?_⟩
  · simp only [Finset.mem_sdiff, List.mem_toFinset]
    exact ⟨hmem, h.2.2⟩
  · simp only [Finset.mem_sdiff, List.toFinset_cons]
    intro hc
    exact hc.2 (Finset.mem_insert_self current _)

/-- get_family_from_lineage (get_taxid_info.py lines 90-106). -/
def get_family_from_lineage (m : TaxMap) (ranks : RankMap) (names : NameMap)
    (t : Nat) : String :=
  familyLoop m ranks names [] t

/-- One line of names.dmp as used by load_names: fields 0 (taxid),
1 (name) and 3 (name class). -/
structure NameRow where
  taxid : Nat
  name : String
  nameClass : String

/-- Assignment tax_to_name[tax_id] = name on a Python dict: replace the
value of an existing key in place, else append the new binding. -/
def dinsert : NameMap → Nat → String → NameMap
  | [], k, v => [(k, v)]
  | (k1, v1) :: rest, k, v =>
      if k1 = k then (k, v) :: rest else (k1, v1) :: dinsert rest k v

/-- The line loop of load_names (get_taxid_info.py lines 49-58): keep only
rows whose name class is exactly "scientific name", assigning into the
dict (a later row for the same taxid overwrites an earlier one). -/
def load_names_aux (acc : NameMap) : List NameRow → NameMap
  | [] => acc
  | r :: rest =>
      if r.nameClass = "scientific name" then
        load_names_aux (dinsert acc r.taxid r.name) rest
      else load_names_aux acc rest

/-- load_names (get_taxid_info.py lines 44-66). -/
def load_names (rows : List NameRow) : NameMap :=
  load_names_aux [] rows

/-- The parent-to-children index built at the top of get_all_descendants
(extract_taxids.py lines 44-48): the children of p are the keys of
tax_to_parent whose value is p, in insertion order. -/
def childrenOf (m : TaxMap) (p : Nat) : List Nat :=
  (m.filter (fun pr => pr.2 == p)).map Prod.fst

/-- descendants.add(tid) on the result set, modelled as an ordered list
without duplicates. -/
def insertSet (acc : List Nat) (x : Nat) : List Nat :=
  if x ∈ acc then acc else acc ++ [x]

/-- get_descendants_recursive (extract_taxids.py lines 53-57): add tid,
then recurse into each child.  The fuel argument bounds the recursion
depth; the source has no such bound and no cycle guard, so a return of
none for every fuel models divergence of the source. -/
def descRec (m : TaxMap) : Nat → Nat → List Nat → Option (List Nat)
  | 0, _, _ => none
  | fuel + 1, tid, acc =>
      (childrenOf m tid).foldl
        (fun st c =>
          match st with
          | none => none
          | some a => descRec m fuel c a)
        (some (insertSet acc tid))

/-- The step of the for loop over children inside get_descendants_recursive. -/
def descStep (m : TaxMap) (fuel : Nat) (st : Option (List Nat)) (c : Nat) :
    Option (List Nat) :=
  match st with
  | none => none
  | some a => descRec m fuel c a

/-- get_all_descendants (extract_taxids.py lines 41-60). -/
def get_all_descendants (m : TaxMap) (fuel : Nat) (t : Nat) : Option (List Nat) :=
  descRec m fuel t []

/-- The ancestor walk is_rna_virus (download_refseq_genomes.py lines
57-63), with the enclosing rna_virus_taxid generalized to the parameter
anc: while current is not the root 1 and has a parent entry, return true
on current = anc, else move to the parent; on falling out of the loop
return false.  The source loop has no visited guard; fuel bounds the
number of iterations and none for every fuel models divergence. -/
def isDescendantOf (m : TaxMap) (anc : Nat) : Nat → Nat → Option Bool
  | 0, _ => none
  | fuel + 1, current =>
      if current ≠ 1 ∧ (List.lookup current m).isSome then
        if current = anc then some true
        else isDescendantOf m anc fuel ((List.lookup current m).getD 0)
      else some false

/-- is_rna_virus itself: the ancestor test against taxid 2559587. -/
def is_rna_virus (m : TaxMap) (fuel : Nat) (t : Nat) : Option Bool :=
  isDescendantOf m 2559587 fuel t

/-- One parent-link step: c has parent p in tax_to_parent. -/
def pstep (m : TaxMap) (c p : Nat) : Prop :=
  List.lookup c m = some p

/-- A parent-link step whose endpoints both lie in the list s. -/
def stepIn (m : TaxMap) (s : List Nat) (a b : Nat) : Prop :=
  List.lookup a m = some b ∧ a ∈ s ∧ b ∈ s

/-- The parent chain from t up to (and excluding) the root 1: l is the
list of nodes visited, t first, each with a parent entry, ending just
before the root. -/
inductive chainToRoot (m : TaxMap) : Nat → List Nat → Prop
  | root : chainToRoot m 1 []
  | step {t p : Nat} {l : List Nat} : t ≠ 1 → List.lookup t m = some p →
      chainToRoot m p l → chainToRoot m t (t :: l)

/-- Divergence of descendant enumeration: no recursion-depth bound is
ever enough. -/
def descDiverges (m : TaxMap) (t : Nat) : Prop :=
  ∀ fuel, get_all_descendants m fuel t = none

/-- Divergence of the ancestor-membership walk: no iteration bound is
ever enough. -/
def ancWalkDiverges (m : TaxMap) (anc t : Nat) : Prop :=
  ∀ fuel, isDescendantOf m anc fuel t = none

/-- One row of the input TSV of process_taxonomy (extract_taxids.py):
the columns the grouping logic reads. -/
structure Row where
  family : String
  taxid : Nat
  rank : String
  genetic_code : Nat

/-- The distinct genetic codes of a family group (the n_unique aggregation
of extract_taxids.py lines 87-92 computes the length of this list). -/
def gencodesOf (df : List Row) (f : String) : List Nat :=
  ((df.filter (fun r => r.family == f)).map (fun r => r.genetic_code)).dedup

/-- Membership of f in families_with_multiple_gencodes (extract_taxids.py
lines 87-92): more than one distinct genetic code among the rows of f. -/
def multiFamily (df : List Row) (f : String) : Bool :=
  decide (1 < (gencodesOf df f).length)

/-- The rows of the (family, genetic_code) group produced by the polars
group_by of extract_taxids.py line 101. -/
def groupRows (df : List Row) (f : String) (g : Nat) : List Row :=
  df.filter (fun r => r.family == f && r.genetic_code == g)

/-- family_taxid (extract_taxids.py line 107): the taxids of the rows of
the (family, genetic_code) group whose rank is exactly "family". -/
def famTaxids (df : List Row) (f : String) (g : Nat) : List Nat :=
  ((groupRows df f g).filter (fun r => r.rank == "family")).map (fun r => r.taxid)

/-- sorted(set(taxids)) (extract_taxids.py line 125). -/
def sortDedup (l : List Nat) : List Nat :=
  l.dedup.insertionSort (· ≤ ·)

/-- tax_to_gencode.get(tid, 1) (extract_taxids.py line 115). -/
def gencodeGet (gmap : TaxMap) (t : Nat) : Nat :=
  (List.lookup t gmap).getD 1

/-- The per-(family, genetic_code) body of the grouping loop of
process_taxonomy (extract_taxids.py lines 101-125), with the file write
dropped: the sorted deduplicated taxid list the source would write.  The
fuel argument is the recursion bound passed on to get_all_descendants;
none models divergence of that call. -/
def outputTaxids (m gmap : TaxMap) (df : List Row) (f : String) (g : Nat)
    (fuel : Nat) : Option (List Nat) :=
  match famTaxids df f g with
  | ft :: rest =>
      if multiFamily df f then
        (get_all_descendants m fuel ft).map
          (fun ds => sortDedup (ds.filter (fun tid => gencodeGet gmap tid == g)))
      else some (sortDedup (ft :: rest))
  | [] => some (sortDedup ((groupRows df f g).map (fun r => r.taxid)))

/-- Input rows of the single-genetic-code example group G. -/
def exampleG : List Row :=
  [⟨"G", 20, "family", 1⟩, ⟨"G", 21, "species", 1⟩]

/-- Input rows of the multi-genetic-code example family F. -/
def exampleF : List Row :=
  [⟨"F", 10, "family", 1⟩, ⟨"F", 11, "species", 1⟩, ⟨"F", 12, "species", 5⟩]

/-- Parent map of the example family tree: 11 and 12 are children of 10. -/
def exampleTree : TaxMap := [(11, 10), (12, 10)]

/-- Genetic codes of the example family tree. -/
def exampleCodes : TaxMap := [(10, 1), (11, 1), (12, 5)]

/-- Rows refuting C1 as stated: the family-rank row of F carries genetic
code 1, so the (F, 5) group holds no family-rank row. -/
def cexRows : List Row :=
  [⟨"F", 10, "family", 1⟩, ⟨"F", 12, "species", 5⟩, ⟨"F", 13, "species", 5⟩]

/-- Parent map for the C1 counterexample: 11, 12, 13, 14 are children of
10; 14 is a code-5 descendant absent from the input rows. -/
def cexTree : TaxMap := [(11, 10), (12, 10), (13, 10), (14, 10)]

/-- Genetic codes for the C1 counterexample. -/
def cexCodes : TaxMap := [(10, 1), (11, 1), (12, 5), (13, 5), (14, 5)]

/-- Rows witnessing the amended C1: the family-rank row itself carries
genetic code 5, so it lies inside the (F, 5) group. -/
def witRowsC1 : List Row :=
  [⟨"F", 10, "family", 5⟩, ⟨"F", 11, "species", 1⟩]

/-- Names-file rows refuting the first-wins reading of C8: two scientific
names for taxid 7. -/
def cexNameRows : List NameRow :=
  [⟨7, "Alpha", "scientific name"⟩, ⟨7, "Beta", "scientific name"⟩]

/-! Helper lemmas about dictionary lookup. -/

theorem lookup_isSome_mem {β : Type} {m : List (Nat × β)} {a : Nat}
    (hs : (List.lookup a m).isSome) : a ∈ m.map Prod.fst := by
  induction m with
  | nil => simp [List.lookup] at hs
  | cons kv rest ih =>
    rcases kv with ⟨k, v⟩
    by_cases hk : a = k
    · simp [hk]
    · rw [List.lookup_cons] at hs
      have hbeq : (a == k) = false := by simp [hk]
      rw [hbeq] at hs
      simpa using Or.inr (by simpa using ih hs)

theorem lookup_of_mem_nodup {β : Type} {m : List (Nat × β)} {a : Nat} {b : β}
    (hnd : (m.map Prod.fst).Nodup) (hab : (a, b) ∈ m) :
    List.lookup a m = some b := by
  induction m with
  | nil => simp at hab
  | cons kv rest ih =>
    rcases kv with ⟨k, v⟩
    rcases List.mem_cons.mp hab with he | hr
    · cases he
      simp [List.lookup_cons]
    · have hk : a ≠ k := by
        intro h
        subst h
        have : a ∈ rest.map Prod.fst := List.mem_map.mpr ⟨(a, b), hr, rfl⟩
        exact (List.nodup_cons.mp (by simpa using hnd)).1 this
      rw [List.lookup_cons]
      have hbeq : (a == k) = false := by simp [hk]
      rw [hbeq]
      exact ih (List.nodup_cons.mp (by simpa using hnd)).2 hr

theorem measure_decr (m : TaxMap) (visited : List Nat) (current : Nat)
    (hmem : current ∈ m.map Prod.fst) (hnv : current ∉ visited) :
    mW m (current :: visited) < mW m visited := by
  have hsub : (m.map Prod.fst).toFinset \ (current :: visited).toFinset ⊆
      (m.map Prod.fst).toFinset \ visited.toFinset := by
    apply Finset.sdiff_subset_sdiff (le_refl _)
    intro x hx
    simp only [List.toFinset_cons, Finset.mem_insert]
    exact Or.inr hx
  apply Finset.card_lt_card
  rw [Finset.ssubset_iff_of_subset hsub]
  refine ⟨current, ?_, ?_⟩
  · simp only [Finset.mem_sdiff, List.mem_toFinset]
    exact ⟨hmem, hnv⟩
  · simp only [Finset.mem_sdiff, List.toFinset_cons]
    intro hc
    exact hc.2 (Finset.mem_insert_self current _)

/-! Invariants of the shared visited-guarded ancestor walk. -/

theorem walkLoop_inv (m : TaxMap) :
    ∀ n visited current, mW m visited = n →
      (∀ x ∈ walkLoop m visited current, x ∉ visited ∧ x ∈ m.map Prod.fst) ∧
        (walkLoop m visited current).Nodup := by
  intro n
  induction n using Nat.strong_induction_on with
  | _ n ih =>
    intro visited current hn
    rw [walkLoop]
    split
    case isTrue h =>
      obtain ⟨h1, h2, h3⟩ := h
      have hmem : current ∈ m.map Prod.fst := lookup_isSome_mem h2
      have hdec : mW m (current :: visited) < n :=
        hn ▸ measure_decr m visited current hmem h3
      obtain ⟨ihel, ihnd⟩ :=
        ih (mW m (current :: visited)) hdec (current :: visited)
          ((List.lookup current m).getD 0) rfl
      constructor
      · intro x hx
        rcases List.mem_cons.mp hx with hx | hx
        · exact hx ▸ ⟨h3, hmem⟩
        · obtain ⟨hnv, hk⟩ := ihel x hx
          exact ⟨fun hv => hnv (List.mem_cons_of_mem _ hv), hk⟩
      · refine List.nodup_cons.mpr ⟨?_, ihnd⟩
        intro hc
        exact (ihel current hc).1 (List.mem_cons_self current visited)
    case isFalse h =>
      exact ⟨by intro x hx; simp at hx, List.nodup_nil⟩

theorem walkLoop_chain (m : TaxMap) {t : Nat} {l : List Nat}
    (hc : chainToRoot m t l) (hnd : l.Nodup) :
    ∀ visited, (∀ x ∈ l, x ∉ visited) → walkLoop m visited t = l := by
  induction hc with
  | root =>
    intro visited hv
    rw [walkLoop]
    split
    case isTrue h => exact absurd rfl h.1
    case isFalse h => rfl
  | step ht hp hcl ih =>
    rename_i t p l
    intro visited hv
    rw [walkLoop]
    split
    case isTrue h =>
      have hpd : (List.lookup t m).getD 0 = p := by rw [hp]; rfl
      rw [hpd]
      have hrest := ih (List.Nodup.of_cons hnd) (t :: visited) ?_
      · rw [hrest]
      · intro x hx
        rw [List.mem_cons]
        rintro (rfl | hxv)
        · exact (List.nodup_cons.mp hnd).1 hx
        · exact hv x (List.mem_cons_of_mem _ hx) hxv
    case isFalse h =>
      exact absurd ⟨ht, hp ▸ rfl, hv t (List.mem_cons_self t l)⟩ h

theorem lineageLoop_eq_walk (m : TaxMap) (names : NameMap) :
    ∀ n visited current, mW m visited = n →
      lineageLoop m names visited current =
        (walkLoop m visited current).map (nameGet names) := by
  intro n
  induction n using Nat.strong_induction_on with
  | _ n ih =>
    intro visited current hn
    rw [lineageLoop, walkLoop]
    split
    case isTrue h =>
      have hmem : current ∈ m.map Prod.fst := lookup_isSome_mem h.2.1
      have hdec : mW m (current :: visited) < n :=
        hn ▸ measure_decr m visited current hmem h.2.2
      rw [List.map_cons,
        ih (mW m (current :: visited)) hdec (current :: visited)
          ((List.lookup current m).getD 0) rfl]
    case isFalse h => rfl

theorem familyLoop_eq_find (m : TaxMap) (ranks : RankMap) (names : NameMap) :
    ∀ n visited current, mW m visited = n →
      familyLoop m ranks names visited current =
        match (walkLoop m visited current).find?
            (fun y => rankGet ranks y == "family") with
        | some x => familyNameGet names x
        | none => "no_family" := by
  intro n
  induction n using Nat.strong_induction_on with
  | _ n ih =>
    intro visited current hn
    rw [familyLoop, walkLoop]
    split
    case isTrue h =>
      have hmem : current ∈ m.map Prod.fst := lookup_isSome_mem h.2.1
      have hdec : mW m (current :: visited) < n :=
        hn ▸ measure_decr m visited current hmem h.2.2
      by_cases hr : rankGet ranks current = "family"
      · rw [if_pos hr, List.find?_cons_of_pos _ (by simpa using hr)]
      · rw [if_neg hr, List.find?_cons_of_neg _ (by simpa using hr)]
        exact ih (mW m (current :: visited)) hdec (current :: visited)
          ((List.lookup current m).getD 0) rfl
    case isFalse h => rfl

/-! Lemmas about sorted(set(..)) and the descendants set. -/

theorem sortDedup_sorted (l : List Nat) : (sortDedup l).Sorted (· ≤ ·) :=
  List.sorted_insertionSort _ _

theorem sortDedup_nodup (l : List Nat) : (sortDedup l).Nodup :=
  (List.perm_insertionSort _ _).nodup_iff.mpr l.nodup_dedup

theorem sortDedup_mem (l : List Nat) (x : Nat) : x ∈ sortDedup l ↔ x ∈ l := by
  unfold sortDedup
  rw [(List.perm_insertionSort _ _).mem_iff, List.mem_dedup]

theorem mem_insertSet {acc : List Nat} {x y : Nat} :
    y ∈ insertSet acc x ↔ y ∈ acc ∨ y = x := by
  unfold insertSet
  split
  case isTrue h =>
    constructor
    · exact Or.inl
    · rintro (h2 | rfl)
      · exact h2
      · exact h
  case isFalse h => simp

theorem subset_insertSet (acc : List Nat) (x : Nat) : acc ⊆ insertSet acc x :=
  fun _ hy => mem_insertSet.mpr (Or.inl hy)

theorem self_mem_insertSet (acc : List Nat) (x : Nat) : x ∈ insertSet acc x :=
  mem_insertSet.mpr (Or.inr rfl)

theorem descRec_succ (m : TaxMap) (fuel tid : Nat) (acc : List Nat) :
    descRec m (fuel + 1) tid acc =
      (childrenOf m tid).foldl (descStep m fuel) (some (insertSet acc tid)) := rfl

theorem descFold_none (m : TaxMap) (fuel : Nat) :
    ∀ cs : List Nat, cs.foldl (descStep m fuel) none = none := by
  intro cs
  induction cs with
  | nil => rfl
  | cons c cs ih => simpa [List.foldl_cons, descStep] using ih

theorem stepIn_mono {m : TaxMap} {s1 s2 : List Nat} (hs : s1 ⊆ s2) :
    ∀ a b, stepIn m s1 a b → stepIn m s2 a b := by
  rintro a b ⟨h1, h2, h3⟩
  exact ⟨h1, hs h2, hs h3⟩

theorem rtg_stepIn_mono {m : TaxMap} {s1 s2 : List Nat} (hs : s1 ⊆ s2) {a b : Nat}
    (h : Relation.ReflTransGen (stepIn m s1) a b) :
    Relation.ReflTransGen (stepIn m s2) a b :=
  Relation.ReflTransGen.mono (stepIn_mono hs) h

theorem rtg_stepIn_target {m : TaxMap} {s : List Nat} {a b : Nat}
    (h : Relation.ReflTransGen (stepIn m s) a b) (ha : a ∈ s) : b ∈ s := by
  induction h with
  | refl => exact ha
  | tail hab e ih => exact e.2.2

theorem childrenOf_lookup {m : TaxMap} {p c : Nat}
    (hnd : (m.map Prod.fst).Nodup) (hc : c ∈ childrenOf m p) :
    List.lookup c m = some p := by
  unfold childrenOf at hc
  obtain ⟨pr, hpr, hfst⟩ := List.mem_map.mp hc
  obtain ⟨hm, hsnd⟩ := List.mem_filter.mp hpr
  rcases pr with ⟨a, b⟩
  have ha : a = c := hfst
  have hb : b = p := by simpa using hsnd
  subst ha
  subst hb
  exact lookup_of_mem_nodup hnd hm

theorem descFold_inv (m : TaxMap) (fuel : Nat)
    (hP : ∀ tid acc s, descRec m fuel tid acc = some s →
      acc ⊆ s ∧ tid ∈ s ∧
        ∀ c ∈ s, c ∈ acc ∨ Relation.ReflTransGen (stepIn m s) c tid) :
    ∀ (cs : List Nat) (acc s : List Nat),
      cs.foldl (descStep m fuel) (some acc) = some s →
      acc ⊆ s ∧ ∀ c ∈ s, c ∈ acc ∨
        ∃ ch ∈ cs, Relation.ReflTransGen (stepIn m s) c ch := by
  intro cs
  induction cs with
  | nil =>
    intro acc s h
    simp only [List.foldl_nil, Option.some.injEq] at h
    subst h
    exact ⟨fun x hx => hx, fun c hc => Or.inl hc⟩
  | cons c0 cs ih =>
    intro acc s h
    rw [List.foldl_cons] at h
    have hstep : descStep m fuel (some acc) c0 = descRec m fuel c0 acc := rfl
    rw [hstep] at h
    cases hrec : descRec m fuel c0 acc with
    | none =>
      rw [hrec, descFold_none] at h
      exact absurd h (by simp)
    | some a2 =>
      rw [hrec] at h
      obtain ⟨hsub2, hc0, hreach⟩ := hP c0 acc a2 hrec
      obtain ⟨hsub3, hreach2⟩ := ih a2 s h
      refine ⟨fun x hx => hsub3 (hsub2 hx), ?_⟩
      intro x hx
      rcases hreach2 x hx with hxa2 | ⟨ch, hch, hrt⟩
      · rcases hreach x hxa2 with hxacc | hrt
        · exact Or.inl hxacc
        · exact Or.inr ⟨c0, List.mem_cons_self _ _, rtg_stepIn_mono hsub3 hrt⟩
      · exact Or.inr ⟨ch, List.mem_cons_of_mem _ hch, hrt⟩

theorem descRec_inv (m : TaxMap) (hnd : (m.map Prod.fst).Nodup) :
    ∀ fuel tid acc s, descRec m fuel tid acc = some s →
      acc ⊆ s ∧ tid ∈ s ∧
        ∀ c ∈ s, c ∈ acc ∨ Relation.ReflTransGen (stepIn m s) c tid := by
  intro fuel
  induction fuel with
  | zero => intro tid acc s h; simp [descRec] at h
  | succ f ih =>
    intro tid acc s h
    rw [descRec_succ] at h
    obtain ⟨hsub, hreach⟩ :=
      descFold_inv m f ih (childrenOf m tid) (insertSet acc tid) s h
    have htid : tid ∈ s := hsub (self_mem_insertSet acc tid)
    refine ⟨fun x hx => hsub (subset_insertSet acc tid hx), htid, ?_⟩
    intro c hc
    rcases hreach c hc with hcm | ⟨ch, hch, hrt⟩
    · rcases mem_insertSet.mp hcm with hca | rfl
      · exact Or.inl hca
      · exact Or.inr Relation.ReflTransGen.refl
    · have hchs : ch ∈ s := rtg_stepIn_target hrt hc
      exact Or.inr
        (Relation.ReflTransGen.tail hrt ⟨childrenOf_lookup hnd hch, hchs, htid⟩)

/-! Lemmas about the ancestor-membership walk. -/

theorem isDescendantOf_succ (m : TaxMap) (anc fuel current : Nat) :
    isDescendantOf m anc (fuel + 1) current =
      if current ≠ 1 ∧ (List.lookup current m).isSome then
        if current = anc then some true
        else isDescendantOf m anc fuel ((List.lookup current m).getD 0)
      else some false := rfl

theorem isDesc_true_of_rtg {m : TaxMap} {s : List Nat} {t : Nat}
    (ht1 : t ≠ 1) (hts : (List.lookup t m).isSome) (h1 : (1 : Nat) ∉ s) :
    ∀ {c}, Relation.ReflTransGen (stepIn m s) c t →
      ∃ f, isDescendantOf m t f c = some true := by
  intro c h
  induction h using Relation.ReflTransGen.head_induction_on with
  | refl =>
    refine ⟨1, ?_⟩
    rw [show (1 : Nat) = 0 + 1 from rfl, isDescendantOf_succ,
      if_pos ⟨ht1, hts⟩, if_pos rfl]
  | head e hrest ih =>
    obtain ⟨f, hf⟩ := ih
    obtain ⟨hab, has, hbs⟩ := e
    rename_i a b
    refine ⟨f + 1, ?_⟩
    have ha1 : a ≠ 1 := fun hq => h1 (hq ▸ has)
    have hgd : (List.lookup a m).getD 0 = b := by rw [hab]; rfl
    rw [isDescendantOf_succ, if_pos ⟨ha1, by simp [hab]⟩]
    by_cases hat : a = t
    · rw [if_pos hat]
    · rw [if_neg hat, hgd]
      exact hf

theorem isDesc_false_of_chain {m : TaxMap} {t : Nat} :
    ∀ {a : Nat} {l : List Nat}, chainToRoot m a l → t ∉ l →
      isDescendantOf m t (l.length + 1) a = some false := by
  intro a l hc
  induction hc with
  | root =>
    intro ht
    rw [show ([] : List Nat).length + 1 = 0 + 1 from rfl, isDescendantOf_succ,
      if_neg (by simp)]
  | step h1 hp hcl ih =>
    rename_i a p l
    intro ht
    have hat : ¬a = t := fun hq => ht (hq ▸ List.mem_cons_self a l)
    have htl : t ∉ l := fun hq => ht (List.mem_cons_of_mem _ hq)
    have hgd : (List.lookup a m).getD 0 = p := by rw [hp]; rfl
    rw [show (a :: l).length + 1 = (l.length + 1) + 1 from by simp,
      isDescendantOf_succ, if_pos ⟨h1, by simp [hp]⟩, if_neg hat, hgd]
    exact ih htl

/-! Divergence of the unguarded walks on the two-node cycle 5 <-> 6. -/

theorem cyc_isDesc_none :
    ∀ fuel, isDescendantOf [(5, 6), (6, 5)] 2559587 fuel 5 = none ∧
      isDescendantOf [(5, 6), (6, 5)] 2559587 fuel 6 = none := by
  intro fuel
  induction fuel with
  | zero => exact ⟨rfl, rfl⟩
  | succ f ih =>
    constructor
    · have h : isDescendantOf [(5, 6), (6, 5)] 2559587 (f + 1) 5 =
          isDescendantOf [(5, 6), (6, 5)] 2559587 f 6 := by
        rw [isDescendantOf_succ, if_pos (by decide), if_neg (by decide)]
        rfl
      rw [h]
      exact ih.2
    · have h : isDescendantOf [(5, 6), (6, 5)] 2559587 (f + 1) 6 =
          isDescendantOf [(5, 6), (6, 5)] 2559587 f 5 := by
        rw [isDescendantOf_succ, if_pos (by decide), if_neg (by decide)]
        rfl
      rw [h]
      exact ih.1

theorem cyc_desc_none :
    ∀ fuel, (∀ acc, descRec [(5, 6), (6, 5)] fuel 5 acc = none) ∧
      (∀ acc, descRec [(5, 6), (6, 5)] fuel 6 acc = none) := by
  intro fuel
  induction fuel with
  | zero => exact ⟨fun _ => rfl, fun _ => rfl⟩
  | succ f ih =>
    constructor
    · intro acc
      rw [descRec_succ]
      have h2 : childrenOf [(5, 6), (6, 5)] 5 = [6] := by decide
      rw [h2, List.foldl_cons]
      have h3 : descStep [(5, 6), (6, 5)] f (some (insertSet acc 5)) 6 =
          descRec [(5, 6), (6, 5)] f 6 (insertSet acc 5) := rfl
      rw [h3, (ih.2) _]
      rfl
    · intro acc
      rw [descRec_succ]
      have h2 : childrenOf [(5, 6), (6, 5)] 6 = [5] := by decide
      rw [h2, List.foldl_cons]
      have h3 : descStep [(5, 6), (6, 5)] f (some (insertSet acc 6)) 5 =
          descRec [(5, 6), (6, 5)] f 5 (insertSet acc 6) := rfl
      rw [h3, (ih.1) _]
      rfl

/-! Lemmas about dict assignment and load_names. -/

theorem dinsert_lookup_self (m : NameMap) (k : Nat) (v : String) :
    List.lookup k (dinsert m k v) = some v := by
  induction m with
  | nil => simp [dinsert, List.lookup_cons]
  | cons kv rest ih =>
    rcases kv with ⟨k1, v1⟩
    unfold dinsert
    by_cases hk : k1 = k
    · rw [if_pos hk]
      simp [List.lookup_cons]
    · rw [if_neg hk, List.lookup_cons]
      have hbeq : (k == k1) = false := by
        simp
        exact fun hq => hk hq.symm
      rw [hbeq]
      exact ih

theorem dinsert_lookup_ne (m : NameMap) (k t : Nat) (v : String) (h : t ≠ k) :
    List.lookup t (dinsert m k v) = List.lookup t m := by
  have hbk : (t == k) = false := by simp [h]
  induction m with
  | nil => simp [dinsert, List.lookup_cons, hbk]
  | cons kv rest ih =>
    rcases kv with ⟨k1, v1⟩
    unfold dinsert
    by_cases hk : k1 = k
    · subst hk
      rw [if_pos rfl, List.lookup_cons, List.lookup_cons, hbk]
    · rw [if_neg hk, List.lookup_cons, List.lookup_cons]
      cases hb1 : (t == k1) with
      | true => rfl
      | false => exact ih

theorem load_names_aux_filter (rows : List NameRow) :
    ∀ acc, load_names_aux acc rows =
      load_names_aux acc (rows.filter (fun r => r.nameClass == "scientific name")) := by
  induction rows with
  | nil => intro acc; rfl
  | cons r rest ih =>
    intro acc
    by_cases hr : r.nameClass = "scientific name"
    · rw [List.filter_cons_of_pos (by simpa using hr)]
      show load_names_aux acc (r :: rest) =
        load_names_aux acc (r :: rest.filter (fun r2 => r2.nameClass == "scientific name"))
      unfold load_names_aux
      rw [if_pos hr, if_pos hr]
      exact ih _
    · rw [List.filter_cons_of_neg (by simpa using hr)]
      show load_names_aux acc (r :: rest) =
        load_names_aux acc (rest.filter (fun r2 => r2.nameClass == "scientific name"))
      conv =>
        lhs
        unfold load_names_aux
      rw [if_neg hr]
      exact ih acc

theorem load_names_aux_lookup (t : Nat) (rows : List NameRow) :
    ∀ acc, List.lookup t (load_names_aux acc rows) =
      match (rows.filter
          (fun r => r.nameClass == "scientific name" && r.taxid == t)).getLast? with
      | some r => some r.name
      | none => List.lookup t acc := by
  induction rows with
  | nil => intro acc; rfl
  | cons r rest ih =>
    intro acc
    by_cases hsci : r.nameClass = "scientific name"
    · by_cases htid : r.taxid = t
      · have hp : (r.nameClass == "scientific name" && r.taxid == t) = true := by
          simp [hsci, htid]
        rw [List.filter_cons, if_pos hp]
        show List.lookup t (load_names_aux acc (r :: rest)) = _
        conv =>
          lhs
          unfold load_names_aux
        rw [if_pos hsci, ih (dinsert acc r.taxid r.name)]
        cases hfr : rest.filter
            (fun r2 => r2.nameClass == "scientific name" && r2.taxid == t) with
        | nil =>
          have hacc : List.lookup t (dinsert acc r.taxid r.name) = some r.name := by
            rw [htid] at *
            exact dinsert_lookup_self acc t r.name
          simp [hacc]
        | cons b bs =>
          rw [List.getLast?_cons_cons]
          cases hbl : (b :: bs).getLast? with
          | none =>
            exact absurd (List.getLast?_eq_none_iff.mp hbl) (by simp)
          | some x => rfl
      · have hp : (r.nameClass == "scientific name" && r.taxid == t) = false := by
          simp [htid]
        rw [List.filter_cons, if_neg (by simp [hp])]
        show List.lookup t (load_names_aux acc (r :: rest)) = _
        conv =>
          lhs
          unfold load_names_aux
        rw [if_pos hsci, ih (dinsert acc r.taxid r.name)]
        have hne : List.lookup t (dinsert acc r.taxid r.name) = List.lookup t acc :=
          dinsert_lookup_ne acc r.taxid t r.name (fun hq => htid hq.symm)
        cases hfr : rest.filter
            (fun r2 => r2.nameClass == "scientific name" && r2.taxid == t) with
        | nil => simp [hne]
        | cons b bs =>
          cases hbl : (b :: bs).getLast? with
          | none =>
            exact absurd (List.getLast?_eq_none_iff.mp hbl) (by simp)
          | some x => rfl
    · have hp : (r.nameClass == "scientific name" && r.taxid == t) = false := by
        simp [hsci]
      rw [List.filter_cons, if_neg (by simp [hp])]
      show List.lookup t (load_names_aux acc (r :: rest)) = _
      conv =>
        lhs
        unfold load_names_aux
      rw [if_neg hsci]
      exact ih acc

/-! Claim theorems. -/

/-- C4: get_lineage walks parent links from t collecting the recorded name
or the substitute unknown_ name of each visited node, stops at the root 1,
at a missing parent entry, or at a revisited node, and returns the
collected names in root-to-leaf order; for a taxid whose parent chain l is
acyclic and reaches the root, the number of returned names equals the
ancestor-chain depth, that is the length of l. -/
theorem C4_lineage_depth (m : TaxMap) (names : NameMap) (t : Nat) (l : List Nat)
    (hc : chainToRoot m t l) (hnd : l.Nodup) :
    get_lineage m names t = (l.map (nameGet names)).reverse ∧
      (get_lineage m names t).length = l.length := by
  have hw : walkLoop m [] t = l := walkLoop_chain m hc hnd [] (by simp)
  have hl : get_lineage m names t = (l.map (nameGet names)).reverse := by
    unfold get_lineage
    rw [lineageLoop_eq_walk m names (mW m []) [] t rfl, hw]
  refine ⟨hl, ?_⟩
  rw [hl]
  simp

/-- Witness for C4 on the concrete chain 3 -> 2 -> 1. -/
theorem C4_witness :
    get_lineage [(3, 2), (2, 1)] [(3, "C"), (2, "B")] 3 =
        (([3, 2].map (nameGet [(3, "C"), (2, "B")])).reverse) ∧
      (get_lineage [(3, 2), (2, 1)] [(3, "C"), (2, "B")] 3).length =
        ([3, 2] : List Nat).length :=
  C4_lineage_depth [(3, 2), (2, 1)] [(3, "C"), (2, "B")] 3 [3, 2]
    (chainToRoot.step (by decide) rfl
      (chainToRoot.step (by decide) rfl chainToRoot.root))
    (by decide)

/-- C5: get_family_from_lineage walks the ancestor chain starting at t
itself and returns the recorded scientific name of the first visited node
whose rank is exactly "family"; if the walk ends (root, missing parent
entry, or revisited node) without such a node it returns "no_family". -/
theorem C5_nearest_family (m : TaxMap) (ranks : RankMap) (names : NameMap) (t : Nat) :
    (∀ x nm, (walkNodes m t).find? (fun y => rankGet ranks y == "family") = some x →
        List.lookup x names = some nm →
        get_family_from_lineage m ranks names t = nm) ∧
    ((walkNodes m t).find? (fun y => rankGet ranks y == "family") = none →
      get_family_from_lineage m ranks names t = "no_family") := by
  have heq := familyLoop_eq_find m ranks names (mW m []) [] t rfl
  constructor
  · intro x nm hfind hnm
    unfold get_family_from_lineage
    rw [heq]
    unfold walkNodes at hfind
    rw [hfind]
    simp [familyNameGet, hnm]
  · intro hfind
    unfold get_family_from_lineage
    rw [heq]
    unfold walkNodes at hfind
    rw [hfind]

/-- Witness for C5: in the chain 3 -> 2 -> 1 the node 2 has rank family
and name FamB; with empty rank and name maps the sentinel is returned. -/
theorem C5_witness :
    get_family_from_lineage [(3, 2), (2, 1)] [(2, "family")] [(2, "FamB")] 3 = "FamB" ∧
      get_family_from_lineage [(3, 2), (2, 1)] [] [] 3 = "no_family" := by
  constructor
  · refine (C5_nearest_family [(3, 2), (2, 1)] [(2, "family")] [(2, "FamB")] 3).1
      2 "FamB" ?_ rfl
    have hw : walkNodes [(3, 2), (2, 1)] 3 = [3, 2] := by
      unfold walkNodes
      rw [walkLoop, dif_pos (by decide)]
      norm_num
      rw [walkLoop, dif_pos (by decide)]
      norm_num
      rw [walkLoop, dif_neg (by decide)]
    rw [hw]
    decide
  · refine (C5_nearest_family [(3, 2), (2, 1)] [] [] 3).2 ?_
    have hw : walkNodes [(3, 2), (2, 1)] 3 = [3, 2] := by
      unfold walkNodes
      rw [walkLoop, dif_pos (by decide)]
      norm_num
      rw [walkLoop, dif_pos (by decide)]
      norm_num
      rw [walkLoop, dif_neg (by decide)]
    rw [hw]
    decide

/-- C9: for a taxid absent from the built tree (no parent entry) the
resolvers return sentinel values rather than raising: the lineage is empty
and the nearest family is "no_family". -/
theorem C9_missing_taxid (m : TaxMap) (names : NameMap) (ranks : RankMap) (t : Nat)
    (h : List.lookup t m = none) :
    get_lineage m names t = [] ∧
      get_family_from_lineage m ranks names t = "no_family" := by
  have hcond : ¬(t ≠ 1 ∧ (List.lookup t m).isSome ∧ t ∉ ([] : List Nat)) := by
    simp [h]
  constructor
  · unfold get_lineage
    rw [lineageLoop, dif_neg hcond]
    rfl
  · unfold get_family_from_lineage
    rw [familyLoop, dif_neg hcond]

/-- Witness for C9 at taxid 99 and the empty tree. -/
theorem C9_witness :
    get_lineage [] [] 99 = [] ∧
      get_family_from_lineage [] [] [] 99 = "no_family" :=
  C9_missing_taxid [] [] [] 99 rfl

/-- C3 counterexample: on the cyclic dump where 5 is the parent of 6 and
6 is the parent of 5, the descendant enumeration and the ancestor-membership walk
(is_rna_virus) do not terminate: no recursion or iteration bound is ever
enough, so in particular isDescendantOf does not return false on the
cycle.  The claim that every walk tracks visited identifiers and
terminates is false of the code. -/
theorem C3_counterexample :
    descDiverges [(5, 6), (6, 5)] 5 ∧
      ancWalkDiverges [(5, 6), (6, 5)] 2559587 5 := by
  constructor
  · intro fuel
    exact (cyc_desc_none fuel).1 []
  · intro fuel
    exact (cyc_isDesc_none fuel).1

/-- C3 amended: only the lineage and nearest-family resolvers track
visited identifiers; their shared walk never revisits a node (the visited
sequence has no duplicates) and therefore terminates after at most as many
steps as there are distinct keys, so the number of collected lineage names
is bounded by the number of distinct taxids in the tree.  The descendant
enumeration and the ancestor-membership walk have no visited guard and
diverge on cyclic dumps (see the counterexample). -/
theorem C3_visited_guard (m : TaxMap) (names : NameMap) (t : Nat) :
    (walkNodes m t).Nodup ∧
      (get_lineage m names t).length ≤ ((m.map Prod.fst).dedup).length := by
  obtain ⟨hel, hnd⟩ := walkLoop_inv m (mW m []) [] t rfl
  refine ⟨hnd, ?_⟩
  have hlen : (get_lineage m names t).length = (walkNodes m t).length := by
    unfold get_lineage walkNodes
    rw [lineageLoop_eq_walk m names (mW m []) [] t rfl]
    simp
  rw [hlen]
  have hsub : walkNodes m t ⊆ (m.map Prod.fst).dedup := by
    intro x hx
    exact List.mem_dedup.mpr (hel x hx).2
  exact (List.subperm_of_subset hnd hsub).length_le

/-- C6: whenever descendant enumeration terminates (some fuel suffices),
the result contains the root t of the enumeration itself, and from every
member c of the result, repeatedly following parent links reaches t in
finitely many steps.  The hypothesis that the keys of the parent map are
distinct encodes that the map is the item list of a Python dict. -/
theorem C6_descendants_reach (m : TaxMap) (fuel t : Nat) (s : List Nat)
    (hnd : (m.map Prod.fst).Nodup) (h : get_all_descendants m fuel t = some s) :
    t ∈ s ∧ ∀ c ∈ s, Relation.ReflTransGen (pstep m) c t := by
  obtain ⟨-, hts, hreach⟩ := descRec_inv m hnd fuel t [] s h
  refine ⟨hts, fun c hc => ?_⟩
  rcases hreach c hc with hc0 | hrt
  · simp at hc0
  · exact Relation.ReflTransGen.mono (fun a b hab => hab.1) hrt

/-- Witness for C6 on the chain 3 -> 2 -> 1 with enumeration root 2. -/
theorem C6_witness :
    2 ∈ [2, 3] ∧
      ∀ c ∈ [2, 3], Relation.ReflTransGen (pstep [(2, 1), (3, 2)]) c 2 :=
  C6_descendants_reach [(2, 1), (3, 2)] 3 2 [2, 3] (by decide) (by decide)

/-- C7 counterexample: for a taxid 5 absent from the parent map the
enumeration terminates with descendants(5) = [5], yet the membership walk
isDescendantOf(5, 5) returns false, not true, because the loop exits
before testing equality when the start node has no parent entry; so the
claim that membership holds for every member of descendants(t), including
t itself, is false of the code. -/
theorem C7_counterexample :
    get_all_descendants ([] : TaxMap) 1 5 = some [5] ∧
      5 ∈ [5] ∧
      isDescendantOf ([] : TaxMap) 5 1 5 = some false ∧
      isDescendantOf ([] : TaxMap) 5 37 5 = some false := by
  refine ⟨by decide, by decide, by decide, by decide⟩

/-- C7 amended: if t is not the root and has a parent entry, and the
terminating enumeration result s does not contain the root 1, then the
membership walk accepts every member of s with some iteration bound; and
the walk rejects any start node whose parent chain reaches the root
without passing through t (in particular siblings and proper ancestors of
t in an acyclic tree). -/
theorem C7_membership_amended :
    (∀ (m : TaxMap) (fuel t : Nat) (s : List Nat) (c : Nat),
        (m.map Prod.fst).Nodup → get_all_descendants m fuel t = some s →
        c ∈ s → t ≠ 1 → (List.lookup t m).isSome → (1 : Nat) ∉ s →
        ∃ f, isDescendantOf m t f c = some true) ∧
    (∀ (m : TaxMap) (a t : Nat) (l : List Nat),
        chainToRoot m a l → t ∉ l →
        isDescendantOf m t (l.length + 1) a = some false) := by
  constructor
  · intro m fuel t s c hnd h hc ht1 hts h1
    obtain ⟨-, -, hreach⟩ := descRec_inv m hnd fuel t [] s h
    rcases hreach c hc with hc0 | hrt
    · simp at hc0
    · exact isDesc_true_of_rtg ht1 hts h1 hrt
  · intro m a t l hc ht
    exact isDesc_false_of_chain hc ht

/-- Witness for C7: in the one-edge tree 2 -> 1, the member 2 of
descendants(2) is accepted, and the walk from 2 rejects the absent
taxid 5. -/
theorem C7_witness :
    (∃ f, isDescendantOf [(2, 1)] 2 f 2 = some true) ∧
      isDescendantOf [(2, 1)] 5 2 2 = some false := by
  constructor
  · exact C7_membership_amended.1 [(2, 1)] 1 2 [2] 2 (by decide) (by decide)
      (by decide) (by decide) (by decide) (by decide)
  · exact C7_membership_amended.2 [(2, 1)] 2 5 [2]
      (chainToRoot.step (by decide) rfl chainToRoot.root) (by decide)

/-- C10: a taxid absent from the node collection (appearing neither as a
child nor as a parent) has no children in the derived index, so the
enumeration returns exactly the singleton of that taxid, not the empty
set, and does not raise. -/
theorem C10_absent_singleton (m : TaxMap) (t fuel : Nat)
    (habs : ∀ pr ∈ m, pr.1 ≠ t ∧ pr.2 ≠ t) (hf : 1 ≤ fuel) :
    get_all_descendants m fuel t = some [t] := by
  cases fuel with
  | zero => omega
  | succ f =>
    unfold get_all_descendants
    rw [descRec_succ]
    have hch : childrenOf m t = [] := by
      unfold childrenOf
      rw [List.filter_eq_nil_iff.mpr]
      · rfl
      · intro pr hpr
        simp [(habs pr hpr).2]
    rw [hch]
    have hins : insertSet [] t = [t] := by simp [insertSet]
    rw [List.foldl_nil, hins]

/-- Witness for C10: taxid 9 is absent from the one-edge map. -/
theorem C10_witness : get_all_descendants [(2, 1)] 1 9 = some [9] :=
  C10_absent_singleton [(2, 1)] 9 1 (by decide) (by decide)

/-- C2: for a group label with exactly one distinct genetic code, the
output taxid set is the taxids of the family-rank rows when present, else
the taxids of all rows of the group; every output taxid list, on every
branch, is deduplicated and ascending; and on the concrete single-code
example group G the output is exactly [20]. -/
theorem C2_single_code :
    (∀ (m gmap : TaxMap) (df : List Row) (G : String) (g fuel : Nat),
        gencodesOf df G = [g] → famTaxids df G g ≠ [] →
        outputTaxids m gmap df G g fuel = some (sortDedup (famTaxids df G g))) ∧
    (∀ (m gmap : TaxMap) (df : List Row) (G : String) (g fuel : Nat),
        gencodesOf df G = [g] → famTaxids df G g = [] →
        outputTaxids m gmap df G g fuel =
          some (sortDedup ((df.filter (fun r => r.family == G)).map
            (fun r => r.taxid)))) ∧
    (∀ (m gmap : TaxMap) (df : List Row) (f : String) (g fuel : Nat)
        (s : List Nat),
        outputTaxids m gmap df f g fuel = some s →
        s.Sorted (· ≤ ·) ∧ s.Nodup) ∧
    outputTaxids [] [] exampleG "G" 1 1 = some [20] := by
  refine ⟨?_, ?_, ?_, by decide⟩
  · intro m gmap df G g fuel h1 h2
    have hmf : multiFamily df G = false := by simp [multiFamily, h1]
    cases hft : famTaxids df G g with
    | nil => exact absurd hft h2
    | cons ft rest =>
      unfold outputTaxids
      rw [hft]
      show (if multiFamily df G = true then
          (get_all_descendants m fuel ft).map
            (fun ds => sortDedup (ds.filter (fun tid => gencodeGet gmap tid == g)))
        else some (sortDedup (ft :: rest))) = some (sortDedup (ft :: rest))
      rw [hmf]
      simp
  · intro m gmap df G g fuel h1 h2
    unfold outputTaxids
    rw [h2]
    have hgr : groupRows df G g = df.filter (fun r => r.family == G) := by
      unfold groupRows
      apply List.filter_congr
      intro r hr
      cases hf : r.family == G with
      | false => simp
      | true =>
        have hmem : r.genetic_code ∈ gencodesOf df G := by
          unfold gencodesOf
          rw [List.mem_dedup]
          exact List.mem_map.mpr ⟨r, List.mem_filter.mpr ⟨hr, hf⟩, rfl⟩
        rw [h1] at hmem
        have hg : r.genetic_code = g := by simpa using hmem
        simp [hg]
    rw [hgr]
  · intro m gmap df f g fuel s h
    unfold outputTaxids at h
    split at h
    case h_1 ft rest heq =>
      split at h
      case isTrue hmf =>
        cases hds : get_all_descendants m fuel ft with
        | none => rw [hds] at h; simp at h
        | some ds =>
          rw [hds] at h
          simp only [Option.map_some'] at h
          have hs : sortDedup (ds.filter (fun tid => gencodeGet gmap tid == g)) = s := by
            injection h
          rw [← hs]
          exact ⟨sortDedup_sorted _, sortDedup_nodup _⟩
      case isFalse hmf =>
        have hs : sortDedup (ft :: rest) = s := by injection h
        rw [← hs]
        exact ⟨sortDedup_sorted _, sortDedup_nodup _⟩
    case h_2 heq =>
      have hs : sortDedup ((groupRows df f g).map (fun r => r.taxid)) = s := by
        injection h
      rw [← hs]
      exact ⟨sortDedup_sorted _, sortDedup_nodup _⟩

/-- Witness for C2 on the example group G. -/
theorem C2_witness :
    outputTaxids [] [] exampleG "G" 1 1 = some (sortDedup (famTaxids exampleG "G" 1)) ∧
      (sortDedup (famTaxids exampleG "G" 1)).Sorted (· ≤ ·) ∧
      (sortDedup (famTaxids exampleG "G" 1)).Nodup := by
  have h1 := C2_single_code.1 [] [] exampleG "G" 1 1 (by decide) (by decide)
  have h2 := C2_single_code.2.2.1 [] [] exampleG "G" 1 1
    (sortDedup (famTaxids exampleG "G" 1)) h1
  exact ⟨h1, h2⟩

/-- C1 counterexample: the family F of cexRows has two distinct genetic
codes and a family-rank row (taxid 10, genetic code 1), so by the claim
the output for (F, 5) should be the genetic-code-5 descendants of 10,
namely [12, 13, 14]; but the code looks for the family-rank row inside the
(F, 5) group only, finds none, and falls back to the raw taxids [12, 13],
omitting the descendant 14. -/
theorem C1_counterexample :
    multiFamily cexRows "F" = true ∧
      ((cexRows.filter (fun r => r.family == "F" && r.rank == "family")).map
        (fun r => r.taxid)) = [10] ∧
      outputTaxids cexTree cexCodes cexRows "F" 5 9 = some [12, 13] ∧
      (get_all_descendants cexTree 9 10).map
        (fun ds => sortDedup (ds.filter (fun tid => gencodeGet cexCodes tid == 5))) =
        some [12, 13, 14] ∧
      ([12, 13] : List Nat) ≠ [12, 13, 14] := by
  refine ⟨by decide, by decide, by decide, by decide, by decide⟩

/-- C1 amended: for a multi-code group, when a family-rank row exists
within the (groupLabel, geneticCode) subgroup (not merely within the
group), the output is the genetic-code filter of the descendants of the
taxid of the first such row, sorted and deduplicated, and membership in the
output is exactly membership in the descendant set with matching genetic
code (default 1 when absent); when the subgroup has no family-rank row the
output falls back to the raw taxids of the subgroup.  On the example given in the claim
itself, the output for (F, 5) is [12]: it excludes 11 and includes 12. -/
theorem C1_amended_grouping :
    (∀ (m gmap : TaxMap) (df : List Row) (f : String) (g fuel ft : Nat)
        (rest ds : List Nat),
        famTaxids df f g = ft :: rest → multiFamily df f = true →
        get_all_descendants m fuel ft = some ds →
        outputTaxids m gmap df f g fuel =
          some (sortDedup (ds.filter (fun tid => gencodeGet gmap tid == g))) ∧
        ∀ x, x ∈ sortDedup (ds.filter (fun tid => gencodeGet gmap tid == g)) ↔
          (x ∈ ds ∧ gencodeGet gmap x = g)) ∧
    (∀ (m gmap : TaxMap) (df : List Row) (f : String) (g fuel : Nat),
        famTaxids df f g = [] →
        outputTaxids m gmap df f g fuel =
          some (sortDedup ((groupRows df f g).map (fun r => r.taxid)))) ∧
    (outputTaxids exampleTree exampleCodes exampleF "F" 5 3 = some [12] ∧
      12 ∈ ([12] : List Nat) ∧ 11 ∉ ([12] : List Nat)) := by
  refine ⟨?_, ?_, by decide⟩
  · intro m gmap df f g fuel ft rest ds hft hmf hds
    constructor
    · unfold outputTaxids
      rw [hft]
      show (if multiFamily df f = true then
          (get_all_descendants m fuel ft).map
            (fun ds2 => sortDedup (ds2.filter (fun tid => gencodeGet gmap tid == g)))
        else some (sortDedup (ft :: rest))) =
        some (sortDedup (ds.filter (fun tid => gencodeGet gmap tid == g)))
      rw [hmf, if_pos rfl, hds]
      rfl
    · intro x
      rw [sortDedup_mem, List.mem_filter]
      simp [beq_iff_eq]
  · intro m gmap df f g fuel hft
    unfold outputTaxids
    rw [hft]

/-- Witness for C1 on rows whose family-rank row carries genetic code 5
and so lies inside the (F, 5) subgroup. -/
theorem C1_witness :
    outputTaxids [(11, 10), (12, 10)] [(10, 5), (11, 1), (12, 5)] witRowsC1 "F" 5 3 =
        some (sortDedup (([10, 11, 12] : List Nat).filter
          (fun tid => gencodeGet [(10, 5), (11, 1), (12, 5)] tid == 5))) ∧
      ∀ x, x ∈ sortDedup (([10, 11, 12] : List Nat).filter
          (fun tid => gencodeGet [(10, 5), (11, 1), (12, 5)] tid == 5)) ↔
        (x ∈ ([10, 11, 12] : List Nat) ∧
          gencodeGet [(10, 5), (11, 1), (12, 5)] x = 5) :=
  C1_amended_grouping.1 [(11, 10), (12, 10)] [(10, 5), (11, 1), (12, 5)]
    witRowsC1 "F" 5 3 10 [] [10, 11, 12] (by decide) (by decide) (by decide)

/-- C8 counterexample: when two scientific-name rows carry the same taxid,
the recorded name is the one of the last row, Beta, not of the first row,
Alpha, because the dict assignment overwrites. -/
theorem C8_counterexample :
    List.lookup 7 (load_names cexNameRows) = some "Beta" ∧
      (some "Beta" : Option String) ≠ some "Alpha" := by
  refine ⟨by decide, by decide⟩

/-- C8 amended: only rows whose name class is exactly "scientific name"
contribute to the taxid-to-name mapping (filtering the input rows to the
scientific-name rows leaves the mapping unchanged), and the name recorded
for a taxon is the one of the last scientific-name row with that taxid
(the getLast? of the filtered rows), not of the first. -/
theorem C8_scientific_last_wins :
    (∀ rows : List NameRow,
        load_names rows =
          load_names (rows.filter (fun r => r.nameClass == "scientific name"))) ∧
    (∀ (rows : List NameRow) (t : Nat),
        List.lookup t (load_names rows) =
          ((rows.filter
            (fun r => r.nameClass == "scientific name" && r.taxid == t)).getLast?).map
            (fun r => r.name)) := by
  constructor
  · intro rows
    exact load_names_aux_filter rows []
  · intro rows t
    unfold load_names
    rw [load_names_aux_lookup t rows []]
    cases h : (rows.filter
        (fun r => r.nameClass == "scientific name" && r.taxid == t)).getLast? with
    | none => rfl
    | some r => rfl

end PyrodigalTax
